import Mathlib

set_option linter.unusedSectionVars false
set_option linter.unusedVariables false

/-!
Verification of the `btree` storage engine (`src/lib.rs`).

The engine (`BTree` in `lib.rs`) wires together three collaborators:
a write-ahead log (`RecordFile`, module `wal_file`), an in-memory
multimap (`MultiMap`, module `multi_map`) and an on-disk sorted store
(`OnDiskBTree`, module `disk_btree`).  Only `lib.rs` is present in the
repository snapshot; the three collaborator modules are modelled from
the specification, as marked on each definition below.  File contents
are modelled as the list of decoded records they hold, and fallible
file operations take an optional injected error.
-/

namespace BTreeSpec

variable {K V : Type} [LinearOrder K] [LinearOrder V]

/-- From `lib.rs` line 18: `const MAX_MEMORY_ITEMS: usize = 1000;`. -/
def MAX_MEMORY_ITEMS : Nat := 1000

/-- Modelled from the spec: the derived order on `KeyValuePair` records
(`wal_file.rs` is missing).  Records compare by key first and, for equal
keys, by value — the order the compaction merge in §4.5 step 3 of the
spec relies on. -/
def kvLe (a b : K × V) : Prop :=
  a.1 < b.1 ∨ (a.1 = b.1 ∧ a.2 ≤ b.2)

instance kvLeDecidable (a b : K × V) : Decidable (kvLe a b) := by
  unfold kvLe
  exact inferInstance

/-- Modelled from the spec: insertion into a `BTreeSet<V>`
(`multi_map.rs` is missing).  The set is kept as a strictly ascending
list; inserting an element already present is a no-op. -/
def insertSorted (v : V) : List V → List V
  | [] => [v]
  | x :: xs =>
    if v < x then v :: x :: xs
    else if v = x then x :: xs
    else x :: insertSorted v xs

/-- Modelled from the spec §4.3: the in-memory index (`multi_map.rs` is
missing) is an ordered mapping from key to an ordered set of values,
plus the running total of insert operations observed (`insert` returns
that total, which the engine compares against the threshold). -/
structure MultiMap (K V : Type) where
  buckets : List (K × List V)
  opCount : Nat
deriving DecidableEq

/-- Modelled from the spec: the empty in-memory index. -/
def MultiMap.empty : MultiMap K V := ⟨[], 0⟩

/-- Modelled from the spec: insertion of `(k, v)` into the sorted bucket
list, creating the key's bucket if absent. -/
def mmInsertBuckets (k : K) (v : V) : List (K × List V) → List (K × List V)
  | [] => [(k, [v])]
  | (k1, vs) :: rest =>
    if k < k1 then (k, [v]) :: (k1, vs) :: rest
    else if k = k1 then (k1, insertSorted v vs) :: rest
    else (k1, vs) :: mmInsertBuckets k v rest

/-- Modelled from the spec §4.3: `insert(key, value) -> total_item_count`
adds the value to the key's ordered collection and returns the new total
count of insert operations ever applied to this index instance. -/
def MultiMap.insert (m : MultiMap K V) (k : K) (v : V) : MultiMap K V × Nat :=
  (⟨mmInsertBuckets k v m.buckets, m.opCount + 1⟩, m.opCount + 1)

/-- Modelled from the spec: lookup of a key's bucket in the bucket list. -/
def bGet : List (K × List V) → K → Option (List V)
  | [], _ => none
  | (k1, vs) :: rest, k => if k = k1 then some vs else bGet rest k

/-- Modelled from the spec §4.3: `get(key)` returns `None` if the key was
never inserted, otherwise the key's ascending collection of values. -/
def MultiMap.get (m : MultiMap K V) (k : K) : Option (List V) :=
  bGet m.buckets k

/-- Modelled from the spec §4.3: `contains_key`. -/
def MultiMap.containsKey (m : MultiMap K V) (k : K) : Bool :=
  (m.get k).isSome

/-- Modelled from the spec: flattening of the bucket list into (key,
value) pairs, bucket order first, value order within a bucket. -/
def bEntries (bs : List (K × List V)) : List (K × V) :=
  bs.foldr (fun p acc => p.2.map (fun v => (p.1, v)) ++ acc) []

/-- Modelled from the spec §4.3: `entries()` — the (key, value) pairs in
ascending key order and, within equal keys, ascending value order; the
sorted stream consumed by compaction. -/
def MultiMap.entries (m : MultiMap K V) : List (K × V) :=
  bEntries m.buckets

/-- The engine state, from the `BTree` struct of `lib.rs` lines 30–37.
The three collaborators are modelled by the record sequences of their
files: `wal_file` is the content of `path + ".wal"`, `tree_file` the
content of the store file at `path`, and `new_file` the content of
`path + ".new"` (`none` while that file does not exist). -/
structure BTree (K V : Type) where
  wal_file : List (K × V)
  mem_tree : MultiMap K V
  tree_file : List (K × V)
  new_file : Option (List (K × V))
deriving DecidableEq

/-- `itertools::merge` (lib.rs line 110): a stable two-way merge — it
yields the element of the first iterator whenever it is `<=` the head of
the second, so at ties the first (in-memory) stream's copy comes first. -/
def mergeLists : List (K × V) → List (K × V) → List (K × V)
  | [], ys => ys
  | xs, [] => xs
  | x :: xs, y :: ys =>
    if kvLe x y then x :: mergeLists xs (y :: ys)
    else y :: mergeLists (x :: xs) ys
termination_by xs ys => xs.length + ys.length

/-- `BTree::new` (lib.rs lines 40–72), given the current contents of the
WAL file and of the store file.  The in-memory index starts empty; the
code then replays the WAL into it only when `wal_file.is_new()` holds —
and `is_new()` (modelled from the spec §4.2) is true exactly when the
file is empty.  Note this is the condition as written in the source,
comment on line 54 notwithstanding. -/
def BTree.new (walContent storeContent : List (K × V)) : BTree K V :=
  let mem0 : MultiMap K V := MultiMap.empty
  let mem :=
    if walContent.isEmpty then
      walContent.foldl (fun m kv => (m.insert kv.1 kv.2).1) mem0
    else mem0
  ⟨walContent, mem, storeContent, none⟩

/-- A freshly opened engine on a path with no existing files
(lib.rs tests `new_blank_file`): both files are created empty. -/
def freshBTree : BTree K V := BTree.new [] []

/-- `BTree::compact` (lib.rs lines 96–115).  It opens (creates or
attaches to) the store at `path + ".new"` and appends every record of
`merge(mem_iter, disk_iter)` to it.  On an injected failure `e` the
operation returns `Err(e)`; otherwise it returns `Ok(())`.  The store
file at `path`, the WAL and the in-memory index are not touched. -/
def BTree.compactOp {E : Type} (compactFail : Option E) (s : BTree K V) :
    BTree K V × Except E Unit :=
  match compactFail with
  | some e => (s, Except.error e)
  | none =>
    let merged := mergeLists s.mem_tree.entries s.tree_file
    ({ s with new_file := some (s.new_file.getD [] ++ merged) }, Except.ok ())

/-- `BTree::insert` (lib.rs lines 75–89), with injected failures for the
WAL append (`walFail`) and for compaction (`compactFail`).  Returns the
state after the call (Rust mutates through `&mut self`, so mutations
before an error persist), the `Result`, and whether `compact()` was
invoked.  The WAL append happens first; on its failure nothing else
runs.  Then the record goes into the in-memory index, and `compact()`
runs iff the returned count exceeds `MAX_MEMORY_ITEMS`. -/
def BTree.insertOp {E : Type} (walFail compactFail : Option E)
    (s : BTree K V) (k : K) (v : V) : BTree K V × Except E Unit × Bool :=
  match walFail with
  | some e => (s, Except.error e, false)
  | none =>
    let s1 : BTree K V := { s with wal_file := s.wal_file ++ [(k, v)] }
    let p := s1.mem_tree.insert k v
    let s2 : BTree K V := { s1 with mem_tree := p.1 }
    if p.2 > MAX_MEMORY_ITEMS then
      let q := BTree.compactOp compactFail s2
      (q.1, q.2, true)
    else (s2, Except.ok (), false)

/-- `BTree::get` (lib.rs lines 91–93): delegates to the in-memory index
only. -/
def BTree.get (s : BTree K V) (k : K) : Option (List V) :=
  s.mem_tree.get k

/-- `BTree::get` as a state transformer: it takes `&self`, so the state
it returns is the state it was given. -/
def BTree.getOp (s : BTree K V) (k : K) : BTree K V × Option (List V) :=
  (s, s.mem_tree.get k)

/-- A sequence of engine inserts with no injected failures, returning
the final state and how many of the inserts invoked `compact()`. -/
def runInserts : BTree K V → List (K × V) → BTree K V × Nat
  | s, [] => (s, 0)
  | s, (k, v) :: rest =>
    let r := BTree.insertOp (E := Unit) none none s k v
    let q := runInserts r.1 rest
    (q.1, (if r.2.2 then 1 else 0) + q.2)

/-- Building the in-memory index by a sequence of raw index inserts. -/
def foldInserts (m : MultiMap K V) (l : List (K × V)) : MultiMap K V :=
  l.foldl (fun m kv => (m.insert kv.1 kv.2).1) m

/-- The index obtained from a record sequence, as WAL replay would
build it. -/
def mmFromList (l : List (K × V)) : MultiMap K V :=
  foldInserts MultiMap.empty l

/-- Well-formedness of the in-memory index: bucket keys strictly
ascending, each bucket's value list strictly ascending. -/
def MMWf (m : MultiMap K V) : Prop :=
  List.Sorted (· < ·) (m.buckets.map Prod.fst) ∧
    ∀ p ∈ m.buckets, List.Sorted (· < ·) p.2

instance mmwfDecidable (m : MultiMap K V) : Decidable (MMWf m) := by
  unfold MMWf
  exact inferInstance

/-- Membership of a value among a key's values in the index. -/
def mmMemD (m : MultiMap K V) (k : K) (w : V) : Prop :=
  w ∈ (m.get k).getD []

instance mmMemDDecidable (m : MultiMap K V) (k : K) (w : V) :
    Decidable (mmMemD m k w) := by
  unfold mmMemD
  exact inferInstance

/-! ### Lemmas about the value sets of the in-memory index -/

theorem mem_insertSorted (v w : V) (l : List V) :
    w ∈ insertSorted v l ↔ w = v ∨ w ∈ l := by
  induction l with
  | nil => simp [insertSorted]
  | cons x xs ih =>
    by_cases h1 : v < x
    · simp only [insertSorted, if_pos h1, List.mem_cons]
    · by_cases h2 : v = x
      · simp only [insertSorted, if_neg h1, if_pos h2, List.mem_cons]
        subst h2
        tauto
      · simp only [insertSorted, if_neg h1, if_neg h2, List.mem_cons, ih]
        tauto

theorem sorted_insertSorted (v : V) (l : List V) (h : List.Sorted (· < ·) l) :
    List.Sorted (· < ·) (insertSorted v l) := by
  induction l with
  | nil => simp [insertSorted]
  | cons x xs ih =>
    rw [List.sorted_cons] at h
    obtain ⟨hx, hxs⟩ := h
    by_cases h1 : v < x
    · simp only [insertSorted, if_pos h1, List.sorted_cons, List.mem_cons]
      refine ⟨?_, ?_, hxs⟩
      · rintro b (rfl | hb)
        · exact h1
        · exact h1.trans (hx b hb)
      · exact hx
    · by_cases h2 : v = x
      · simp only [insertSorted, if_neg h1, if_pos h2, List.sorted_cons]
        exact ⟨hx, hxs⟩
      · have hxv : x < v := by
          rcases lt_trichotomy v x with h | h | h
          · exact absurd h h1
          · exact absurd h h2
          · exact h
        simp only [insertSorted, if_neg h1, if_neg h2, List.sorted_cons]
        refine ⟨?_, ih hxs⟩
        intro b hb
        rcases (mem_insertSorted v b xs).mp hb with rfl | hb
        · exact hxv
        · exact hx b hb

/-! ### Lemmas about the bucket list of the in-memory index -/

theorem bGet_eq_none_of_lt (bs : List (K × List V)) (k : K)
    (h : ∀ p ∈ bs, k < p.1) : bGet bs k = none := by
  induction bs with
  | nil => rfl
  | cons p rest ih =>
    obtain ⟨k1, vs⟩ := p
    have hne : k ≠ k1 := ne_of_lt (h (k1, vs) (List.mem_cons_self _ _))
    simp only [bGet, if_neg hne]
    exact ih fun q hq => h q (List.mem_cons_of_mem _ hq)

theorem bGet_insert_self (k : K) (v : V) (bs : List (K × List V))
    (hs : List.Sorted (· < ·) (bs.map Prod.fst)) :
    bGet (mmInsertBuckets k v bs) k = some (insertSorted v ((bGet bs k).getD [])) := by
  induction bs with
  | nil => simp [mmInsertBuckets, bGet, insertSorted]
  | cons p rest ih =>
    obtain ⟨k1, vs⟩ := p
    rw [List.map_cons, List.sorted_cons] at hs
    obtain ⟨hk1, hrest⟩ := hs
    by_cases h1 : k < k1
    · have hne : k ≠ k1 := ne_of_lt h1
      have hnone : bGet rest k = none := by
        apply bGet_eq_none_of_lt
        intro q hq
        exact h1.trans (hk1 q.1 (List.mem_map_of_mem Prod.fst hq))
      simp [mmInsertBuckets, if_pos h1, bGet, hne, hnone, insertSorted]
    · by_cases h2 : k = k1
      · subst h2
        simp [mmInsertBuckets, if_neg h1, bGet]
      · simp [mmInsertBuckets, if_neg h1, h2, bGet, ih hrest]

theorem bGet_insert_ne (k k' : K) (v : V) (bs : List (K × List V)) (hne : k' ≠ k) :
    bGet (mmInsertBuckets k v bs) k' = bGet bs k' := by
  induction bs with
  | nil => simp [mmInsertBuckets, bGet, hne]
  | cons p rest ih =>
    obtain ⟨k1, vs⟩ := p
    by_cases h1 : k < k1
    · simp [mmInsertBuckets, if_pos h1, bGet, hne]
    · by_cases h2 : k = k1
      · subst h2
        simp [mmInsertBuckets, if_neg h1, bGet, hne]
      · simp [mmInsertBuckets, if_neg h1, h2, bGet, ih]

theorem mem_keys_insert (k a : K) (v : V) (bs : List (K × List V))
    (h : a ∈ (mmInsertBuckets k v bs).map Prod.fst) :
    a = k ∨ a ∈ bs.map Prod.fst := by
  induction bs with
  | nil =>
    simp [mmInsertBuckets] at h
    tauto
  | cons p rest ih =>
    obtain ⟨k1, vs⟩ := p
    by_cases h1 : k < k1
    · simp only [mmInsertBuckets, if_pos h1, List.map_cons, List.mem_cons] at h
      simp only [List.map_cons, List.mem_cons]
      tauto
    · by_cases h2 : k = k1
      · simp only [mmInsertBuckets, if_neg h1, if_pos h2, List.map_cons,
          List.mem_cons] at h
        simp only [List.map_cons, List.mem_cons]
        tauto
      · simp only [mmInsertBuckets, if_neg h1, if_neg h2, List.map_cons,
          List.mem_cons] at h
        simp only [List.map_cons, List.mem_cons]
        rcases h with h | h
        · tauto
        · rcases ih h with h | h <;> tauto

theorem sorted_keys_insert (k : K) (v : V) (bs : List (K × List V))
    (hs : List.Sorted (· < ·) (bs.map Prod.fst)) :
    List.Sorted (· < ·) ((mmInsertBuckets k v bs).map Prod.fst) := by
  induction bs with
  | nil => simp [mmInsertBuckets]
  | cons p rest ih =>
    obtain ⟨k1, vs⟩ := p
    rw [List.map_cons, List.sorted_cons] at hs
    obtain ⟨hk1, hrest⟩ := hs
    by_cases h1 : k < k1
    · simp only [mmInsertBuckets, if_pos h1, List.map_cons, List.sorted_cons,
        List.mem_cons]
      refine ⟨?_, hk1, hrest⟩
      rintro b (rfl | hb)
      · exact h1
      · exact h1.trans (hk1 b hb)
    · by_cases h2 : k = k1
      · simp only [mmInsertBuckets, if_neg h1, if_pos h2, List.map_cons,
          List.sorted_cons]
        exact ⟨hk1 , hrest⟩
      · have hk1k : k1 < k := by
          rcases lt_trichotomy k k1 with h | h | h
          · exact absurd h h1
          · exact absurd h h2
          · exact h
        simp only [mmInsertBuckets, if_neg h1, if_neg h2, List.map_cons,
          List.sorted_cons]
        refine ⟨?_, ih hrest⟩
        intro b hb
        rcases mem_keys_insert k b v rest hb with rfl | hb
        · exact hk1k
        · exact hk1 b hb

theorem sorted_values_insert (k : K) (v : V) (bs : List (K × List V))
    (h : ∀ p ∈ bs, List.Sorted (· < ·) p.2) :
    ∀ p ∈ mmInsertBuckets k v bs, List.Sorted (· < ·) p.2 := by
  induction bs with
  | nil =>
    intro p hp
    simp [mmInsertBuckets] at hp
    subst hp
    simp
  | cons q rest ih =>
    obtain ⟨k1, vs⟩ := q
    have hvs : List.Sorted (· < ·) vs := h (k1, vs) (List.mem_cons_self _ _)
    have hrest : ∀ p ∈ rest, List.Sorted (· < ·) p.2 :=
      fun p hp => h p (List.mem_cons_of_mem _ hp)
    intro p hp
    by_cases h1 : k < k1
    · simp only [mmInsertBuckets, if_pos h1, List.mem_cons] at hp
      rcases hp with rfl | rfl | hp
      · simp
      · exact hvs
      · exact hrest p hp
    · by_cases h2 : k = k1
      · simp only [mmInsertBuckets, if_neg h1, if_pos h2, List.mem_cons] at hp
        rcases hp with rfl | hp
        · exact sorted_insertSorted v vs hvs
        · exact hrest p hp
      · simp only [mmInsertBuckets, if_neg h1, if_neg h2, List.mem_cons] at hp
        rcases hp with rfl | hp
        · exact hvs
        · exact ih hrest p hp

theorem MMWf.insert (m : MultiMap K V) (k : K) (v : V) (h : MMWf m) :
    MMWf ((m.insert k v).1) := by
  obtain ⟨hkeys, hvals⟩ := h
  exact ⟨sorted_keys_insert k v m.buckets hkeys, sorted_values_insert k v m.buckets hvals⟩

/-! ### Lemmas about `MultiMap.get` after inserts -/

theorem get_insert_self (m : MultiMap K V) (k : K) (v : V) (h : MMWf m) :
    (m.insert k v).1.get k = some (insertSorted v ((m.get k).getD [])) :=
  bGet_insert_self k v m.buckets h.1

theorem get_insert_ne (m : MultiMap K V) (k k' : K) (v : V) (hne : k' ≠ k) :
    (m.insert k v).1.get k' = m.get k' :=
  bGet_insert_ne k k' v m.buckets hne

theorem mmMemD_insert (m : MultiMap K V) (k k' : K) (v w : V) (h : MMWf m) :
    mmMemD (m.insert k v).1 k' w ↔ (k' = k ∧ w = v) ∨ mmMemD m k' w := by
  by_cases hk : k' = k
  · subst hk
    unfold mmMemD
    rw [get_insert_self m k' v h]
    simp only [Option.getD_some, mem_insertSorted]
    tauto
  · unfold mmMemD
    rw [get_insert_ne m k k' v hk]
    tauto

theorem get_insert_eq_none (m : MultiMap K V) (k k' : K) (v : V) (h : MMWf m) :
    (m.insert k v).1.get k' = none ↔ m.get k' = none ∧ k' ≠ k := by
  by_cases hk : k' = k
  · subst hk
    rw [get_insert_self m k' v h]
    simp
  · rw [get_insert_ne m k k' v hk]
    simp [hk]

theorem mem_of_bGet (bs : List (K × List V)) (k : K) (vs : List V)
    (h : bGet bs k = some vs) : ∃ p ∈ bs, p.2 = vs := by
  induction bs with
  | nil => cases h
  | cons p rest ih =>
    obtain ⟨k1, vs1⟩ := p
    by_cases hk : k = k1
    · simp only [bGet, if_pos hk, Option.some.injEq] at h
      exact ⟨(k1, vs1), List.mem_cons_self _ _, h⟩
    · simp only [bGet, if_neg hk] at h
      obtain ⟨q, hq, he⟩ := ih h
      exact ⟨q, List.mem_cons_of_mem _ hq, he⟩

theorem sorted_of_get (m : MultiMap K V) (k : K) (vs : List V) (h : MMWf m)
    (hg : m.get k = some vs) : List.Sorted (· < ·) vs := by
  obtain ⟨p, hp, he⟩ := mem_of_bGet m.buckets k vs hg
  rw [← he]
  exact h.2 p hp

/-! ### Lemmas about folding a record sequence into the index -/

theorem foldInserts_cons (m : MultiMap K V) (k : K) (v : V) (l : List (K × V)) :
    foldInserts m ((k, v) :: l) = foldInserts (m.insert k v).1 l := rfl

theorem MMWf_foldInserts (l : List (K × V)) :
    ∀ m : MultiMap K V, MMWf m → MMWf (foldInserts m l) := by
  induction l with
  | nil => exact fun m h => h
  | cons kv rest ih =>
    intro m h
    obtain ⟨k, v⟩ := kv
    rw [foldInserts_cons]
    exact ih _ (MMWf.insert m k v h)

theorem MMWf_empty : MMWf (MultiMap.empty : MultiMap K V) := by
  constructor
  · simp [MultiMap.empty]
  · intro p hp
    simp [MultiMap.empty] at hp

theorem mmMemD_foldInserts (l : List (K × V)) :
    ∀ m : MultiMap K V, MMWf m → ∀ (k : K) (w : V),
      (mmMemD (foldInserts m l) k w ↔ (k, w) ∈ l ∨ mmMemD m k w) := by
  induction l with
  | nil =>
    intro m _ k w
    simp [foldInserts]
  | cons kv rest ih =>
    intro m hm k w
    obtain ⟨ka, va⟩ := kv
    rw [foldInserts_cons, ih _ (MMWf.insert m ka va hm) k w,
      mmMemD_insert m ka k va w hm]
    simp only [List.mem_cons, Prod.mk.injEq]
    tauto

theorem get_foldInserts_none (l : List (K × V)) :
    ∀ m : MultiMap K V, MMWf m → ∀ k : K,
      ((foldInserts m l).get k = none ↔ m.get k = none ∧ ∀ v, (k, v) ∉ l) := by
  induction l with
  | nil =>
    intro m _ k
    simp [foldInserts]
  | cons kv rest ih =>
    intro m hm k
    obtain ⟨ka, va⟩ := kv
    rw [foldInserts_cons, ih _ (MMWf.insert m ka va hm) k,
      get_insert_eq_none m ka k va hm]
    constructor
    · rintro ⟨⟨h0, hne⟩, hall⟩
      refine ⟨h0, ?_⟩
      intro v hv
      rcases List.mem_cons.mp hv with hv | hv
      · exact hne (congrArg Prod.fst hv)
      · exact hall v hv
    · rintro ⟨h0, hall⟩
      refine ⟨⟨h0, ?_⟩, ?_⟩
      · intro hk
        subst hk
        exact hall va (List.mem_cons_self _ _)
      · intro v hv
        exact hall v (List.mem_cons_of_mem _ hv)

theorem opCount_foldInserts (l : List (K × V)) :
    ∀ m : MultiMap K V, (foldInserts m l).opCount = m.opCount + l.length := by
  induction l with
  | nil =>
    intro m
    simp [foldInserts]
  | cons kv rest ih =>
    intro m
    obtain ⟨k, v⟩ := kv
    rw [foldInserts_cons, ih]
    simp [MultiMap.insert]
    omega

/-! ### The record order and the two-way merge -/

theorem kvLe_refl (a : K × V) : kvLe a a := Or.inr ⟨rfl, le_refl a.2⟩

theorem kvLe_total (a b : K × V) : kvLe a b ∨ kvLe b a := by
  unfold kvLe
  rcases lt_trichotomy a.1 b.1 with h | h | h
  · exact Or.inl (Or.inl h)
  · rcases le_total a.2 b.2 with h2 | h2
    · exact Or.inl (Or.inr ⟨h, h2⟩)
    · exact Or.inr (Or.inr ⟨h.symm, h2⟩)
  · exact Or.inr (Or.inl h)

theorem kvLe_trans (a b c : K × V) (h1 : kvLe a b) (h2 : kvLe b c) : kvLe a c := by
  unfold kvLe at h1 h2 ⊢
  rcases h1 with h1 | ⟨h1e, h1v⟩ <;> rcases h2 with h2 | ⟨h2e, h2v⟩
  · exact Or.inl (h1.trans h2)
  · exact Or.inl (h2e ▸ h1)
  · exact Or.inl (h1e ▸ h2)
  · exact Or.inr ⟨h1e.trans h2e, h1v.trans h2v⟩

theorem kvLe_of_not (a b : K × V) (h : ¬kvLe a b) : kvLe b a :=
  (kvLe_total a b).resolve_left h

theorem mergeLists_nil_left (ys : List (K × V)) : mergeLists [] ys = ys := by
  simp [mergeLists]

theorem mergeLists_nil_right (xs : List (K × V)) : mergeLists xs [] = xs := by
  cases xs <;> simp [mergeLists]

theorem mergeLists_cons_pos (x y : K × V) (xs ys : List (K × V)) (h : kvLe x y) :
    mergeLists (x :: xs) (y :: ys) = x :: mergeLists xs (y :: ys) := by
  simp only [mergeLists, if_pos h]

theorem mergeLists_cons_neg (x y : K × V) (xs ys : List (K × V)) (h : ¬kvLe x y) :
    mergeLists (x :: xs) (y :: ys) = y :: mergeLists (x :: xs) ys := by
  simp only [mergeLists, if_neg h]

theorem mergeLists_perm (xs : List (K × V)) :
    ∀ ys, List.Perm (mergeLists xs ys) (xs ++ ys) := by
  induction xs with
  | nil =>
    intro ys
    rw [mergeLists_nil_left]
    exact (List.Perm.refl ys)
  | cons x xs ih =>
    intro ys
    induction ys with
    | nil =>
      rw [mergeLists_nil_right, List.append_nil]
    | cons y ys ihy =>
      by_cases h : kvLe x y
      · rw [mergeLists_cons_pos x y xs ys h]
        exact (ih (y :: ys)).cons x
      · rw [mergeLists_cons_neg x y xs ys h]
        exact ((ihy.cons y).trans List.perm_middle.symm)

theorem mergeLists_sorted (xs : List (K × V)) :
    ∀ ys, List.Sorted kvLe xs → List.Sorted kvLe ys →
      List.Sorted kvLe (mergeLists xs ys) := by
  induction xs with
  | nil =>
    intro ys _ h2
    rw [mergeLists_nil_left]
    exact h2
  | cons x xs ih =>
    intro ys hx
    induction ys with
    | nil =>
      intro _
      rw [mergeLists_nil_right]
      exact hx
    | cons y ys ihy =>
      intro hy
      rw [List.sorted_cons] at hy
      obtain ⟨hyb, hys⟩ := hy
      rw [List.sorted_cons] at hx
      obtain ⟨hxb, hxs⟩ := hx
      by_cases h : kvLe x y
      · rw [mergeLists_cons_pos x y xs ys h, List.sorted_cons]
        constructor
        · intro b hb
          have hb' : b ∈ xs ++ y :: ys :=
            (mergeLists_perm xs (y :: ys)).mem_iff.mp hb
          rcases List.mem_append.mp hb' with hb' | hb'
          · exact hxb b hb'
          · rcases List.mem_cons.mp hb' with rfl | hb'
            · exact h
            · exact kvLe_trans x y b h (hyb b hb')
        · exact ih (y :: ys) hxs (List.sorted_cons.mpr ⟨hyb, hys⟩)
      · have hyx : kvLe y x := kvLe_of_not x y h
        rw [mergeLists_cons_neg x y xs ys h, List.sorted_cons]
        constructor
        · intro b hb
          have hb' : b ∈ (x :: xs) ++ ys :=
            (mergeLists_perm (x :: xs) ys).mem_iff.mp hb
          rcases List.mem_append.mp hb' with hb' | hb'
          · rcases List.mem_cons.mp hb' with rfl | hb'
            · exact hyx
            · exact kvLe_trans y x b hyx (hxb b hb')
          · exact hyb b hb'
        · exact ihy hys

/-! ### The entry stream of the in-memory index is sorted -/

theorem bEntries_cons (p : K × List V) (rest : List (K × List V)) :
    bEntries (p :: rest) = p.2.map (fun v => (p.1, v)) ++ bEntries rest := rfl

theorem fst_mem_of_mem_bEntries (bs : List (K × List V)) (b : K × V)
    (h : b ∈ bEntries bs) : b.1 ∈ bs.map Prod.fst := by
  induction bs with
  | nil => simp [bEntries] at h
  | cons p rest ih =>
    rw [bEntries_cons] at h
    rcases List.mem_append.mp h with h | h
    · obtain ⟨v, _, rfl⟩ := List.mem_map.mp h
      simp
    · simp only [List.map_cons, List.mem_cons]
      exact Or.inr (ih h)

theorem bEntries_sorted (bs : List (K × List V))
    (h1 : List.Sorted (· < ·) (bs.map Prod.fst))
    (h2 : ∀ p ∈ bs, List.Sorted (· < ·) p.2) :
    List.Sorted kvLe (bEntries bs) := by
  induction bs with
  | nil => simp [bEntries]
  | cons p rest ih =>
    obtain ⟨k1, vs⟩ := p
    rw [List.map_cons, List.sorted_cons] at h1
    obtain ⟨hk1, hrest⟩ := h1
    have hvs : List.Sorted (· < ·) vs := h2 (k1, vs) (List.mem_cons_self _ _)
    have h2rest : ∀ p ∈ rest, List.Sorted (· < ·) p.2 :=
      fun p hp => h2 p (List.mem_cons_of_mem _ hp)
    rw [bEntries_cons]
    show List.Pairwise kvLe _
    rw [List.pairwise_append]
    refine ⟨?_, ih hrest h2rest, ?_⟩
    · rw [List.pairwise_map]
      exact hvs.imp fun hab => Or.inr ⟨rfl, le_of_lt hab⟩
    · intro a ha b hb
      obtain ⟨v, _, rfl⟩ := List.mem_map.mp ha
      have hbf : b.1 ∈ rest.map Prod.fst := fst_mem_of_mem_bEntries rest b hb
      exact Or.inl (hk1 b.1 hbf)

theorem entries_sorted (m : MultiMap K V) (h : MMWf m) :
    List.Sorted kvLe m.entries :=
  bEntries_sorted m.buckets h.1 h.2

/-! ### Behaviour of the engine operations -/

theorem compactOp_none {E : Type} (s : BTree K V) :
    BTree.compactOp (E := E) none s =
      ({ s with
          new_file :=
            some (s.new_file.getD [] ++
              mergeLists s.mem_tree.entries s.tree_file) },
        Except.ok ()) := rfl

theorem compactOp_fail {E : Type} (e : E) (s : BTree K V) :
    BTree.compactOp (some e) s = (s, Except.error e) := rfl

theorem insertOp_walFail {E : Type} (e : E) (cf : Option E) (s : BTree K V)
    (k : K) (v : V) :
    BTree.insertOp (some e) cf s k v = (s, Except.error e, false) := rfl

theorem insertOp_nofail_eq {E : Type} (s : BTree K V) (k : K) (v : V) :
    BTree.insertOp (E := E) none none s k v =
      if s.mem_tree.opCount + 1 > MAX_MEMORY_ITEMS then
        ({ s with
            wal_file := s.wal_file ++ [(k, v)],
            mem_tree := (s.mem_tree.insert k v).1,
            new_file :=
              some (s.new_file.getD [] ++
                mergeLists (s.mem_tree.insert k v).1.entries s.tree_file) },
          Except.ok (), true)
      else
        ({ s with
            wal_file := s.wal_file ++ [(k, v)],
            mem_tree := (s.mem_tree.insert k v).1 },
          Except.ok (), false) := by
  by_cases h : s.mem_tree.opCount + 1 > MAX_MEMORY_ITEMS
  · rw [if_pos h]
    simp only [BTree.insertOp, BTree.compactOp, MultiMap.insert]
    rw [if_pos h]
  · rw [if_neg h]
    simp only [BTree.insertOp, BTree.compactOp, MultiMap.insert]
    rw [if_neg h]

theorem insertOp_mem {E : Type} (s : BTree K V) (k : K) (v : V) :
    (BTree.insertOp (E := E) none none s k v).1.mem_tree =
      (s.mem_tree.insert k v).1 := by
  rw [insertOp_nofail_eq]
  split_ifs <;> rfl

theorem insertOp_wal {E : Type} (s : BTree K V) (k : K) (v : V) :
    (BTree.insertOp (E := E) none none s k v).1.wal_file =
      s.wal_file ++ [(k, v)] := by
  rw [insertOp_nofail_eq]
  split_ifs <;> rfl

theorem insertOp_tree {E : Type} (s : BTree K V) (k : K) (v : V) :
    (BTree.insertOp (E := E) none none s k v).1.tree_file = s.tree_file := by
  rw [insertOp_nofail_eq]
  split_ifs <;> rfl

theorem insertOp_ok {E : Type} (s : BTree K V) (k : K) (v : V) :
    (BTree.insertOp (E := E) none none s k v).2.1 = Except.ok () := by
  rw [insertOp_nofail_eq]
  split_ifs <;> rfl

theorem insertOp_flag {E : Type} (s : BTree K V) (k : K) (v : V) :
    (BTree.insertOp (E := E) none none s k v).2.2 =
      decide (s.mem_tree.opCount + 1 > MAX_MEMORY_ITEMS) := by
  rw [insertOp_nofail_eq]
  split_ifs with h
  · simp [h]
  · simp [h]

theorem runInserts_cons (s : BTree K V) (k : K) (v : V) (rest : List (K × V)) :
    runInserts s ((k, v) :: rest) =
      ((runInserts (BTree.insertOp (E := Unit) none none s k v).1 rest).1,
        (if (BTree.insertOp (E := Unit) none none s k v).2.2 then 1 else 0) +
          (runInserts (BTree.insertOp (E := Unit) none none s k v).1 rest).2) := rfl

theorem runInserts_mem_tree (l : List (K × V)) :
    ∀ s : BTree K V, (runInserts s l).1.mem_tree = foldInserts s.mem_tree l := by
  induction l with
  | nil => intro s; rfl
  | cons kv rest ih =>
    intro s
    obtain ⟨k, v⟩ := kv
    rw [runInserts_cons]
    show (runInserts (BTree.insertOp (E := Unit) none none s k v).1 rest).1.mem_tree = _
    rw [ih, insertOp_mem, foldInserts_cons]

theorem runInserts_wal (l : List (K × V)) :
    ∀ s : BTree K V, (runInserts s l).1.wal_file = s.wal_file ++ l := by
  induction l with
  | nil => intro s; simp [runInserts]
  | cons kv rest ih =>
    intro s
    obtain ⟨k, v⟩ := kv
    rw [runInserts_cons]
    show (runInserts (BTree.insertOp (E := Unit) none none s k v).1 rest).1.wal_file = _
    rw [ih, insertOp_wal]
    simp

theorem opCount_insert (m : MultiMap K V) (k : K) (v : V) :
    (m.insert k v).1.opCount = m.opCount + 1 := rfl

theorem runInserts_count (l : List (K × V)) :
    ∀ s : BTree K V, (runInserts s l).2 =
      (s.mem_tree.opCount + l.length) - max s.mem_tree.opCount MAX_MEMORY_ITEMS := by
  induction l with
  | nil =>
    intro s
    show 0 = (s.mem_tree.opCount + 0) - max s.mem_tree.opCount MAX_MEMORY_ITEMS
    omega
  | cons kv rest ih =>
    intro s
    obtain ⟨k, v⟩ := kv
    rw [runInserts_cons]
    show (if (BTree.insertOp (E := Unit) none none s k v).2.2 then 1 else 0) +
        (runInserts (BTree.insertOp (E := Unit) none none s k v).1 rest).2 = _
    rw [ih, insertOp_mem, insertOp_flag, opCount_insert]
    simp only [List.length_cons, decide_eq_true_eq]
    by_cases h : s.mem_tree.opCount + 1 > MAX_MEMORY_ITEMS
    · rw [if_pos h]
      omega
    · rw [if_neg h]
      omega

theorem insertOp_mem_cf {E : Type} (cf : Option E) (s : BTree K V) (k : K) (v : V) :
    (BTree.insertOp none cf s k v).1.mem_tree = (s.mem_tree.insert k v).1 := by
  cases cf with
  | none => exact insertOp_mem s k v
  | some e =>
    simp only [BTree.insertOp, BTree.compactOp]
    split_ifs <;> rfl

theorem insertOp_wal_cf {E : Type} (cf : Option E) (s : BTree K V) (k : K) (v : V) :
    (BTree.insertOp none cf s k v).1.wal_file = s.wal_file ++ [(k, v)] := by
  cases cf with
  | none => exact insertOp_wal s k v
  | some e =>
    simp only [BTree.insertOp, BTree.compactOp]
    split_ifs <;> rfl

example : (freshBTree : BTree Nat Nat).mem_tree = MultiMap.empty := by decide

example :
    mergeLists [((2 : Nat), (0 : Nat)), (3, 0), (4, 0)] [(1, 0), (3, 0), (5, 0)] =
      [(1, 0), (2, 0), (3, 0), (3, 0), (4, 0), (5, 0)] := by
  simp [mergeLists, kvLe]

/-! ### The claims -/

/-- C1: the claim says `BTree::new` replays a non-empty WAL into the
in-memory index and skips replay when the WAL is new.  The code does the
opposite: line 55 of `lib.rs` runs the replay loop only when
`wal_file.is_new()` holds, i.e. only when the WAL file is empty and the
loop has nothing to replay.  Evaluated here: opening over the non-empty
WAL `[(1, 2)]` leaves the index empty and `get 1` returns `none`, even
though the WAL file content is exactly `[(1, 2)]`; opening over an empty
WAL also yields an empty index. -/
theorem C1_open_never_replays_nonempty_wal :
    (BTree.new [((1 : Nat), (2 : Nat))] []).mem_tree = MultiMap.empty ∧
    BTree.get (BTree.new [((1 : Nat), (2 : Nat))] []) 1 = none ∧
    (BTree.new [((1 : Nat), (2 : Nat))] []).wal_file = [(1, 2)] ∧
    (BTree.new ([] : List (Nat × Nat)) []).mem_tree = MultiMap.empty :=
  ⟨rfl, rfl, rfl, rfl⟩

/-- C2 counterexample: after a successful `compact()` on a state with
WAL content `[(0, 0)]`, index bucket `(1, [1])` and store content
`[(2, 2)]`, the store file still holds its old content (not the merged
records) and the WAL is still non-empty — the claimed rename and WAL
truncation do not happen. -/
theorem C2_counterexample_no_swap :
    ¬ ((BTree.compactOp (E := Unit) none
          (⟨[(0, 0)], ⟨[(1, [1])], 1⟩, [(2, 2)], none⟩ : BTree Nat Nat)).1.tree_file =
        mergeLists (MultiMap.entries ⟨[(1, [1])], 1⟩) [(2, 2)] ∧
      (BTree.compactOp (E := Unit) none
          (⟨[(0, 0)], ⟨[(1, [1])], 1⟩, [(2, 2)], none⟩ : BTree Nat Nat)).1.wal_file = []) := by
  rintro ⟨-, hwal⟩
  exact List.cons_ne_nil _ _ (show ((0, 0) :: []) = ([] : List (Nat × Nat)) from hwal)

/-- C2 amended: a successful `compact()` appends the merged record
stream to the file at `path + ".new"` and returns `Ok(())`; the store
file at the base path, the WAL and the in-memory index are all left
unchanged — no atomic replacement and no WAL truncation occur
(`lib.rs` lines 96–115 end after the merge loop). -/
theorem C2_compact_only_writes_new_file :
    ∀ s : BTree K V,
      (BTree.compactOp (E := Unit) none s).2 = Except.ok () ∧
      (BTree.compactOp (E := Unit) none s).1.new_file =
        some (s.new_file.getD [] ++ mergeLists s.mem_tree.entries s.tree_file) ∧
      (BTree.compactOp (E := Unit) none s).1.tree_file = s.tree_file ∧
      (BTree.compactOp (E := Unit) none s).1.wal_file = s.wal_file ∧
      (BTree.compactOp (E := Unit) none s).1.mem_tree = s.mem_tree :=
  fun _ => ⟨rfl, rfl, rfl, rfl, rfl⟩

/-- C3: starting from a fresh engine, an insert invokes `compact()` iff
the count returned by the index insert exceeds `MAX_MEMORY_ITEMS`;
across a run of successful inserts the number of compactions equals
`length - 1000` (truncated), so 1001 inserts produce exactly one
compaction and 1000 or fewer produce none. -/
theorem C3_threshold_trigger :
    ∀ l : List (K × V),
      ((runInserts (freshBTree) l).2 = l.length - MAX_MEMORY_ITEMS) ∧
      (∀ (s : BTree K V) (k : K) (v : V),
        ((BTree.insertOp (E := Unit) none none s k v).2.2 = true ↔
          (s.mem_tree.insert k v).2 > MAX_MEMORY_ITEMS)) ∧
      (l.length = 1001 → (runInserts (freshBTree) l).2 = 1) ∧
      (l.length ≤ 1000 → (runInserts (freshBTree) l).2 = 0) := by
  intro l
  have hc := runInserts_count l freshBTree
  have h0 : (freshBTree : BTree K V).mem_tree.opCount = 0 := rfl
  rw [h0] at hc
  have hM : MAX_MEMORY_ITEMS = 1000 := rfl
  refine ⟨?_, ?_, ?_, ?_⟩
  · rw [hc]
    omega
  · intro s k v
    rw [insertOp_flag]
    simp [MultiMap.insert]
  · intro h
    rw [hc, h, hM]
    omega
  · intro h
    rw [hc, hM]
    omega

/-- C3 witness: inserting 1001 records into a fresh engine triggers
exactly one compaction. -/
theorem C3_threshold_trigger_witness :
    (runInserts (freshBTree : BTree Nat Nat)
      ((List.range 1001).map fun i => (i, 0))).2 = 1 :=
  (C3_threshold_trigger _).2.2.1 (by simp)

/-- C4: the stream written to the new store file during compaction is
the stable two-way merge of the index's entry stream (sorted when the
index is well-formed) with the store's record stream: for sorted inputs
the output is sorted by key then value, it is a permutation of the two
inputs' concatenation (both copies of full ties retained), at any head
tie the in-memory stream's copy is emitted first, and the spec's example
`[2,3,4]` merged into `[1,3,5]` gives keys `[1,2,3,3,4,5]`. -/
theorem C4_compaction_merge :
    ∀ mem disk : List (K × V),
      List.Sorted kvLe mem → List.Sorted kvLe disk →
        (List.Sorted kvLe (mergeLists mem disk) ∧
          List.Perm (mergeLists mem disk) (mem ++ disk) ∧
          (∀ m : MultiMap K V, MMWf m → List.Sorted kvLe m.entries) ∧
          (∀ (x y : K × V) (xs ys : List (K × V)), kvLe x y →
            mergeLists (x :: xs) (y :: ys) = x :: mergeLists xs (y :: ys)) ∧
          (∀ s : BTree K V,
            (BTree.compactOp (E := Unit) none s).1.new_file =
              some (s.new_file.getD [] ++
                mergeLists s.mem_tree.entries s.tree_file)) ∧
          mergeLists [((2 : Nat), (0 : Nat)), (3, 0), (4, 0)]
              [(1, 0), (3, 0), (5, 0)] =
            [(1, 0), (2, 0), (3, 0), (3, 0), (4, 0), (5, 0)]) := by
  intro mem disk hm hd
  refine ⟨mergeLists_sorted mem disk hm hd, mergeLists_perm mem disk, ?_, ?_, ?_, ?_⟩
  · intro m hwf
    exact entries_sorted m hwf
  · intro x y xs ys h
    exact mergeLists_cons_pos x y xs ys h
  · intro s
    rfl
  · simp [mergeLists, kvLe]

/-- C4 witness: the merge of the spec's example streams is sorted and
is a permutation of the concatenation of the two streams. -/
theorem C4_compaction_merge_witness :
    List.Sorted kvLe
        (mergeLists [((2 : Nat), (0 : Nat)), (3, 0), (4, 0)] [(1, 0), (3, 0), (5, 0)]) ∧
      List.Perm
        (mergeLists [((2 : Nat), (0 : Nat)), (3, 0), (4, 0)] [(1, 0), (3, 0), (5, 0)])
        ([(2, 0), (3, 0), (4, 0)] ++ [(1, 0), (3, 0), (5, 0)]) :=
  ⟨(C4_compaction_merge _ _ (by decide) (by decide)).1,
    (C4_compaction_merge _ _ (by decide) (by decide)).2.1⟩

/-- C5: `get` reads only the in-memory index; a compaction (in
particular the one an insert triggers) leaves the index untouched, so
after a successful insert every other key's values are unchanged and
every prior value of the inserted key is still present. -/
theorem C5_get_unaffected_by_compaction :
    ∀ (s : BTree K V) (k : K) (v : V), MMWf s.mem_tree →
      ((∀ (t : BTree K V) (q : K), BTree.get t q = t.mem_tree.get q) ∧
        (∀ t : BTree K V,
          (BTree.compactOp (E := Unit) none t).1.mem_tree = t.mem_tree) ∧
        (BTree.insertOp (E := Unit) none none s k v).1.mem_tree =
          (s.mem_tree.insert k v).1 ∧
        (∀ k', k' ≠ k →
          BTree.get (BTree.insertOp (E := Unit) none none s k v).1 k' =
            BTree.get s k') ∧
        (∀ w, mmMemD s.mem_tree k w →
          mmMemD (BTree.insertOp (E := Unit) none none s k v).1.mem_tree k w)) := by
  intro s k v hwf
  refine ⟨fun t q => rfl, fun t => rfl, insertOp_mem s k v, ?_, ?_⟩
  · intro k' hk
    show (BTree.insertOp (E := Unit) none none s k v).1.mem_tree.get k' =
      s.mem_tree.get k'
    rw [insertOp_mem]
    exact get_insert_ne s.mem_tree k k' v hk
  · intro w hw
    rw [insertOp_mem]
    exact (mmMemD_insert s.mem_tree k k v w hwf).mpr (Or.inr hw)

/-- C5 witness: on a fresh engine, inserting key 0 leaves `get 2`
unchanged. -/
theorem C5_get_unaffected_witness :
    BTree.get (BTree.insertOp (E := Unit) none none
        (freshBTree : BTree Nat Nat) 0 1).1 2 =
      BTree.get (freshBTree : BTree Nat Nat) 2 :=
  (C5_get_unaffected_by_compaction freshBTree 0 1 (by decide)).2.2.2.1 2 (by decide)

/-- C6: when the WAL append fails with error `e`, `insert` returns
exactly that error and the whole engine state — in particular the
in-memory index — is unchanged; on the successful WAL path the record
reaches the WAL and only then the index. -/
theorem C6_wal_failure_first :
    ∀ {E : Type} (e : E) (cf : Option E) (s : BTree K V) (k : K) (v : V),
      BTree.insertOp (some e) cf s k v = (s, Except.error e, false) ∧
      (BTree.insertOp none cf s k v).1.wal_file = s.wal_file ++ [(k, v)] ∧
      (BTree.insertOp none cf s k v).1.mem_tree = (s.mem_tree.insert k v).1 :=
  fun e cf s k v => ⟨rfl, insertOp_wal_cf cf s k v, insertOp_mem_cf cf s k v⟩

/-- C7 counterexample: a WAL-stage failure and a compaction-stage
failure produce the same observable result from `insert` — the same
`Err` value through the same `Box<dyn Error>` channel (here both are
`Except.error ()`), so the caller cannot tell them apart from the
return value, contradicting the claimed distinct reporting. -/
theorem C7_counterexample_same_error :
    (BTree.insertOp (E := Unit) (some ()) none
        (freshBTree : BTree Nat Nat) 0 0).2.1 = Except.error () ∧
    (BTree.insertOp (E := Unit) none (some ())
        (⟨[], ⟨[], 1000⟩, [], none⟩ : BTree Nat Nat) 0 0).2.1 = Except.error () ∧
    (BTree.insertOp (E := Unit) none (some ())
        (⟨[], ⟨[], 1000⟩, [], none⟩ : BTree Nat Nat) 0 0).2.2 = true :=
  ⟨rfl, rfl, rfl⟩

/-- C7 amended: when the compaction invoked inside `insert` fails, the
compaction error is propagated to the caller unchanged through the same
error channel as an insert-stage failure (no distinguishing marker is
added), while the insert itself has already committed: the record is in
the WAL and in the in-memory index. -/
theorem C7_compact_error_propagated :
    ∀ {E : Type} (e : E) (s : BTree K V) (k : K) (v : V),
      s.mem_tree.opCount + 1 > MAX_MEMORY_ITEMS →
        ((BTree.insertOp none (some e) s k v).2.1 = Except.error e ∧
          (BTree.insertOp none (some e) s k v).2.2 = true ∧
          (BTree.insertOp none (some e) s k v).1.wal_file = s.wal_file ++ [(k, v)] ∧
          (BTree.insertOp none (some e) s k v).1.mem_tree =
            (s.mem_tree.insert k v).1 ∧
          (BTree.insertOp (some e) none s k v).2.1 = Except.error e) := by
  intro E e s k v h
  have heq : BTree.insertOp none (some e) s k v =
      ({ s with
          wal_file := s.wal_file ++ [(k, v)],
          mem_tree := (s.mem_tree.insert k v).1 },
        Except.error e, true) := by
    simp only [BTree.insertOp, BTree.compactOp, MultiMap.insert]
    rw [if_pos h]
  rw [heq]
  exact ⟨rfl, rfl, rfl, rfl, rfl⟩

/-- C7 witness: a concrete engine past the threshold, whose insert
commits and then reports the injected compaction error. -/
theorem C7_compact_error_witness :
    (BTree.insertOp (E := Unit) none (some ())
        (⟨[], ⟨[], 1000⟩, [], none⟩ : BTree Nat Nat) 3 4).2.1 = Except.error () ∧
    (BTree.insertOp (E := Unit) none (some ())
        (⟨[], ⟨[], 1000⟩, [], none⟩ : BTree Nat Nat) 3 4).1.wal_file = [(3, 4)] :=
  ⟨(C7_compact_error_propagated () _ 3 4 (by decide)).1,
    (C7_compact_error_propagated () _ 3 4 (by decide)).2.2.1⟩

/-- C8: after a run of successful inserts on a fresh engine, the
in-memory index holds exactly the union of the inserted associations:
`get k` is `none` iff `k` was never inserted, and otherwise returns a
strictly ascending list containing a value iff it was inserted for `k`
(so re-inserting an existing pair is idempotent and distinct values for
one key accumulate). -/
theorem C8_index_is_union :
    ∀ (l : List (K × V)) (k : K),
      (BTree.get (runInserts (freshBTree) l).1 k = none ↔ ∀ v, (k, v) ∉ l) ∧
      (∀ vs, BTree.get (runInserts (freshBTree) l).1 k = some vs →
        List.Sorted (· < ·) vs ∧ ∀ v, (v ∈ vs ↔ (k, v) ∈ l)) := by
  intro l k
  have hmem : (runInserts (freshBTree : BTree K V) l).1.mem_tree =
      foldInserts MultiMap.empty l := by
    rw [runInserts_mem_tree]
    rfl
  have hget : BTree.get (runInserts (freshBTree : BTree K V) l).1 k =
      (foldInserts MultiMap.empty l).get k := by
    show (runInserts (freshBTree : BTree K V) l).1.mem_tree.get k = _
    rw [hmem]
  constructor
  · rw [hget, get_foldInserts_none l MultiMap.empty MMWf_empty k]
    have hnone : (MultiMap.empty : MultiMap K V).get k = none := rfl
    simp [hnone]
  · intro vs hvs
    rw [hget] at hvs
    constructor
    · exact sorted_of_get _ k vs (MMWf_foldInserts l MultiMap.empty MMWf_empty) hvs
    · intro v
      have hm := mmMemD_foldInserts l MultiMap.empty MMWf_empty k v
      have hd : mmMemD (foldInserts MultiMap.empty l) k v ↔ v ∈ vs := by
        unfold mmMemD
        rw [hvs]
        simp
      have hempty : ¬ mmMemD (MultiMap.empty : MultiMap K V) k v := by
        unfold mmMemD
        simp [MultiMap.empty, MultiMap.get, bGet]
      constructor
      · intro hv
        rcases hm.mp (hd.mpr hv) with h | h
        · exact h
        · exact absurd h hempty
      · intro hv
        exact hd.mp (hm.mpr (Or.inl hv))

/-- C8 witness: inserting (5,7), (5,9) and (5,7) again yields exactly
the ascending duplicate-free values [7, 9] for key 5. -/
theorem C8_index_is_union_witness :
    List.Sorted (· < ·) [7, 9] ∧
      (∀ v, v ∈ [7, 9] ↔ ((5 : Nat), v) ∈ [((5 : Nat), (7 : Nat)), (5, 9), (5, 7)]) :=
  (C8_index_is_union [((5 : Nat), (7 : Nat)), (5, 9), (5, 7)] 5).2 [7, 9] (by decide)

/-- C9: once the index's insert-operation count has reached the
threshold it is never reset — every further successful insert invokes a
compaction that merges the entire entry stream of the (fully retained)
in-memory index with the entire on-disk store, and the post-state is
past the threshold again. -/
theorem C9_every_insert_compacts :
    ∀ (s : BTree K V) (k : K) (v : V),
      MAX_MEMORY_ITEMS ≤ s.mem_tree.opCount →
        ((BTree.insertOp (E := Unit) none none s k v).2.2 = true ∧
          (BTree.insertOp (E := Unit) none none s k v).1.mem_tree.opCount =
            s.mem_tree.opCount + 1 ∧
          MAX_MEMORY_ITEMS ≤
            (BTree.insertOp (E := Unit) none none s k v).1.mem_tree.opCount ∧
          (BTree.insertOp (E := Unit) none none s k v).1.new_file =
            some (s.new_file.getD [] ++
              mergeLists (s.mem_tree.insert k v).1.entries s.tree_file) ∧
          (BTree.insertOp (E := Unit) none none s k v).1.tree_file = s.tree_file ∧
          (∀ t : BTree K V,
            (BTree.compactOp (E := Unit) none t).1.mem_tree = t.mem_tree)) := by
  intro s k v h
  have hgt : s.mem_tree.opCount + 1 > MAX_MEMORY_ITEMS :=
    Nat.lt_of_le_of_lt h (Nat.lt_succ_self _)
  rw [insertOp_nofail_eq, if_pos hgt]
  refine ⟨rfl, opCount_insert s.mem_tree k v, ?_, rfl, rfl, fun t => rfl⟩
  rw [opCount_insert]
  exact le_trans h (Nat.le_succ _)

/-- C9 witness: an engine whose index has seen 1000 inserts compacts on
the next insert. -/
theorem C9_every_insert_compacts_witness :
    (BTree.insertOp (E := Unit) none none
        (⟨[], ⟨[], 1000⟩, [], none⟩ : BTree Nat Nat) 0 0).2.2 = true :=
  (C9_every_insert_compacts _ 0 0 (by decide)).1

/-- C10: `get` is a pure read: it returns the given state unchanged
(WAL, store file and `.new` file included), its answer is the index
lookup, it cannot fail (it is total, returning an `Option`), and two
consecutive calls on the same state agree. -/
theorem C10_get_is_pure :
    ∀ (s : BTree K V) (k : K),
      (BTree.getOp s k).1 = s ∧
      (BTree.getOp s k).2 = s.mem_tree.get k ∧
      BTree.getOp ((BTree.getOp s k).1) k = BTree.getOp s k ∧
      (BTree.getOp s k).1.wal_file = s.wal_file ∧
      (BTree.getOp s k).1.tree_file = s.tree_file ∧
      (BTree.getOp s k).1.new_file = s.new_file :=
  fun s k => ⟨rfl, rfl, rfl, rfl, rfl, rfl⟩

end BTreeSpec
